import Mathlib

/-!
# Verification of the cargo-clone-crate core logic

A shallow embedding, in Lean 4, of the decision logic of the
`cargo-clone-crate` library (`src/lib.rs`): clone-method names, semantic
version ordering and selection, version-requirement normalization
(`check_semver_req`), the clone control flow (`Cloner::clone`), hosting
detection (`Cloner::detect_repo`), Bitbucket response handling
(`Cloner::bitbucket`), and tarball extraction (`Cloner::clone_crate`).

Machine strings are modelled as Lean `String`/`List Char`; all operations
that the Rust code performs on strings are re-implemented here as
executable functions on character lists (Lean's own `String` utilities are
avoided because they do not reduce in the kernel).

External collaborators (the network, the filesystem, the `semver` crate's
requirement parser) are modelled as explicit parameters or as explicitly
marked definitions, so that everything the repository's own code decides
is a pure, executable Lean function.
-/

deriving instance DecidableEq for Except

namespace CargoClone

/-! ## Character-list utilities

Executable stand-ins for the Rust `str` operations used by the source. -/

/-- Rust `char::to_ascii_lowercase`-style lowering, the ASCII fragment of
`str::to_lowercase` (package names on crates.io are ASCII). -/
def lowerChar (c : Char) : Char :=
  if 'A' ≤ c ∧ c ≤ 'Z' then Char.ofNat (c.toNat + 32) else c

/-- Lowercase a character list (models `str::to_lowercase`). -/
def lowerCs (cs : List Char) : List Char := cs.map lowerChar

/-- Does `cs` end with the suffix `suf`?  Models `str::ends_with`. -/
def endsWithCs (cs suf : List Char) : Bool := suf.isSuffixOf cs

/-- Does `cs` start with the prefix `pre`?  Models `str::starts_with`. -/
def startsWithCs (cs pre : List Char) : Bool := pre.isPrefixOf cs

/-- If `pre` is a prefix of `cs`, return the rest of `cs`. -/
def stripPrefixCs (pre cs : List Char) : Option (List Char) :=
  if cs.take pre.length = pre then some (cs.drop pre.length) else none

/-! ## Clone methods (`CloneMethodKind` in `src/lib.rs`) -/

/-- The supported cloning methods (`enum CloneMethodKind`). -/
inductive CloneMethodKind where
  /-- Downloads the `.crate` file from the registry and extracts it. -/
  | Crate
  /-- Clones using `git`. -/
  | Git
  /-- Clones using `hg`. -/
  | Mercurial
  /-- Clones using `pijul`. -/
  | Pijul
  /-- Clones using `fossil`. -/
  | Fossil
  /-- Automatically detect which method to use. -/
  | Auto
deriving DecidableEq, Repr

namespace CloneMethodKind

/-- The underlying command-line command for the method
(`CloneMethodKind::command`). -/
def command : CloneMethodKind → String
  | .Crate => "crate"
  | .Git => "git"
  | .Mercurial => "hg"
  | .Pijul => "pijul"
  | .Fossil => "fossil"
  | .Auto => "auto"

/-- Creates a `CloneMethodKind` from a method name; `none` when no name
fits (`CloneMethodKind::from` — `from` is a reserved word in Lean). -/
def ofName (method_name : String) : Option CloneMethodKind :=
  if method_name = "crate" then some .Crate
  else if method_name = "git" then some .Git
  else if method_name = "hg" then some .Mercurial
  else if method_name = "mercurial" then some .Mercurial
  else if method_name = "pijul" then some .Pijul
  else if method_name = "fossil" then some .Fossil
  else if method_name = "auto" then some .Auto
  else none

end CloneMethodKind

/-! ## Semantic versions

Modelled from the `semver` crate (the dependency through which
`src/lib.rs` parses and orders versions).  A version is
`major.minor.patch` with optional dot-separated pre-release and
build-metadata identifiers; identifiers are character lists. -/

/-- A parsed semantic version (`semver::Version`). -/
structure Version where
  /-- The major component. -/
  major : Nat
  /-- The minor component. -/
  minor : Nat
  /-- The patch component. -/
  patch : Nat
  /-- Dot-separated pre-release identifiers (empty list: no pre-release). -/
  pre : List (List Char)
  /-- Dot-separated build-metadata identifiers (empty list: none). -/
  build : List (List Char)
deriving DecidableEq, Repr

/-- Comparison of characters by code point (Rust compares `str` by UTF-8
bytes, which orders exactly by code point). -/
def charCmp (a b : Char) : Ordering := compare a.toNat b.toNat

/-- Lexicographic comparison of lists: the empty list first, otherwise
head then tail (as in iterator-based comparison in Rust, where the
exhausted side is `Less`). -/
def listCmp (c : α → α → Ordering) : List α → List α → Ordering
  | [], [] => .eq
  | [], _ :: _ => .lt
  | _ :: _, [] => .gt
  | a :: as, b :: bs => (c a b).then (listCmp c as bs)

/-- Is the identifier made of ASCII digits only (numeric identifier)? -/
def isNumericIdent (s : List Char) : Bool := s.all (·.isDigit)

/-- Comparison of two pre-release identifiers, as in
`impl Ord for semver::Prerelease`: two numeric identifiers compare by
length then lexicographically (numeric value, since valid numeric
identifiers carry no leading zero); numeric sorts below alphanumeric;
two alphanumeric identifiers compare lexicographically. -/
def identPreCmp (a b : List Char) : Ordering :=
  match isNumericIdent a, isNumericIdent b with
  | true, true => (compare a.length b.length).then (listCmp charCmp a b)
  | true, false => .lt
  | false, true => .gt
  | false, false => listCmp charCmp a b

/-- Leading zeros of a digit string, stripped
(`str::trim_start_matches('0')`). -/
def trimZeros (s : List Char) : List Char := s.dropWhile (· == '0')

/-- Comparison of two build-metadata identifiers, as in
`impl Ord for semver::BuildMetadata`: digit-only identifiers (which may
carry leading zeros here) compare by the zero-trimmed value and then by
total length, digits sort below non-digits, anything else is
lexicographic. -/
def identBuildCmp (a b : List Char) : Ordering :=
  match isNumericIdent a, isNumericIdent b with
  | true, true =>
      ((compare (trimZeros a).length (trimZeros b).length).then
        (listCmp charCmp (trimZeros a) (trimZeros b))).then
        (compare a.length b.length)
  | true, false => .lt
  | false, true => .gt
  | false, false => listCmp charCmp a b

/-- Comparison of pre-release identifier lists: an empty pre-release
(an ordinary release) sorts above any pre-release; otherwise identifier
lists compare lexicographically with the shorter list first. -/
def preCmp (a b : List (List Char)) : Ordering :=
  match a, b with
  | [], [] => .eq
  | [], _ :: _ => .gt
  | _ :: _, [] => .lt
  | _ :: _, _ :: _ => listCmp identPreCmp a b

/-- Comparison of build-metadata identifier lists (the shorter list
first; the crate treats the empty metadata as a single empty identifier
but the resulting order is the same). -/
def buildCmp (a b : List (List Char)) : Ordering := listCmp identBuildCmp a b

/-- Total comparison of versions, as in `impl Ord for semver::Version`:
major, minor, patch, then pre-release, then build metadata. -/
def versionCmp (a b : Version) : Ordering :=
  (compare a.major b.major).then
    ((compare a.minor b.minor).then
      ((compare a.patch b.patch).then
        ((preCmp a.pre b.pre).then (buildCmp a.build b.build))))

/-- Boolean less-or-equal on versions, the order `sort_unstable_by_key`
sorts by in `Cloner::clone_crate`. -/
def versionLe (a b : Version) : Bool := versionCmp a b ≠ .gt

/-! ## Laws of the comparators -/

/-- Laws making an `Ordering`-valued comparator a linear quasi-order:
symmetry under `Ordering.swap`, transitivity of strict comparison, and
congruence of comparison-equal elements. -/
structure CmpLaws (c : α → α → Ordering) : Prop where
  /-- Swapping arguments swaps the outcome. -/
  symm : ∀ a b, (c a b).swap = c b a
  /-- Strict comparison is transitive. -/
  lt_trans : ∀ {a b d}, c a b = .lt → c b d = .lt → c a d = .lt
  /-- Comparison-equal elements compare alike with anything. -/
  eq_congr : ∀ {a b}, c a b = .eq → ∀ d, c a d = c b d

namespace CmpLaws

variable {α : Type _} {c : α → α → Ordering}

theorem refl (h : CmpLaws c) (a : α) : c a a = .eq := by
  have hs := h.symm a a
  cases hc : c a a
  · rw [hc] at hs; exact absurd hs (by decide)
  · rfl
  · rw [hc] at hs; exact absurd hs (by decide)

theorem eq_symm (h : CmpLaws c) {a b : α} (hab : c a b = .eq) : c b a = .eq := by
  have hs := h.symm a b
  rw [hab] at hs
  exact hs.symm

theorem gt_iff_lt (h : CmpLaws c) {a b : α} : c a b = .gt ↔ c b a = .lt := by
  constructor <;> intro hx
  · have hs := h.symm a b; rw [hx] at hs; exact hs.symm
  · have hs := h.symm b a; rw [hx] at hs; exact hs.symm

theorem eq_congr_right (h : CmpLaws c) {b d : α} (hbd : c b d = .eq) (a : α) :
    c a b = c a d :=
  calc c a b = (c b a).swap := (h.symm b a).symm
    _ = (c d a).swap := by rw [h.eq_congr hbd a, h.eq_congr (h.eq_symm hbd) a]
    _ = c a d := h.symm d a

theorem le_trans (h : CmpLaws c) {a b d : α} (hab : c a b ≠ .gt) (hbd : c b d ≠ .gt) :
    c a d ≠ .gt := by
  cases h1 : c a b with
  | gt => exact absurd h1 hab
  | eq => rw [h.eq_congr h1 d]; exact hbd
  | lt =>
    cases h2 : c b d with
    | gt => exact absurd h2 hbd
    | eq => rw [← h.eq_congr_right h2 a]; exact hab
    | lt => rw [h.lt_trans h1 h2]; decide

theorem total (h : CmpLaws c) (a b : α) : c a b ≠ .gt ∨ c b a ≠ .gt := by
  cases h1 : c a b with
  | lt => left; decide
  | eq => left; decide
  | gt => right; rw [h.gt_iff_lt.mp h1]; decide

/-- Lexicographic composition of two lawful comparators on the same type
is lawful. -/
theorem thenCmp {c₁ c₂ : α → α → Ordering} (h₁ : CmpLaws c₁) (h₂ : CmpLaws c₂) :
    CmpLaws (fun a b => (c₁ a b).then (c₂ a b)) where
  symm a b := by
    simp only [Ordering.swap_then, h₁.symm, h₂.symm]
  lt_trans {a b d} hab hbd := by
    simp only [Ordering.then_eq_lt] at hab hbd ⊢
    rcases hab with hab | ⟨hab, hab2⟩
    · rcases hbd with hbd | ⟨hbd, hbd2⟩
      · exact Or.inl (h₁.lt_trans hab hbd)
      · left; rw [← h₁.eq_congr_right hbd a]; exact hab
    · rcases hbd with hbd | ⟨hbd, hbd2⟩
      · left; rw [h₁.eq_congr hab d]; exact hbd
      · exact Or.inr ⟨by rw [h₁.eq_congr hab d]; exact hbd, h₂.lt_trans hab2 hbd2⟩
  eq_congr {a b} hab d := by
    simp only [Ordering.then_eq_eq] at hab
    rw [h₁.eq_congr hab.1 d, h₂.eq_congr hab.2 d]

/-- A lawful comparator pulled back along a function is lawful. -/
theorem onFn {β : Type _} {c : β → β → Ordering} (h : CmpLaws c) (f : α → β) :
    CmpLaws (fun a b => c (f a) (f b)) where
  symm _ _ := h.symm _ _
  lt_trans hab hbd := h.lt_trans hab hbd
  eq_congr hab d := h.eq_congr hab (f d)

end CmpLaws

theorem natCmpLaws : CmpLaws (compare : Nat → Nat → Ordering) where
  symm a b := by
    rcases Nat.lt_trichotomy a b with h | h | h
    · simp [Nat.compare_eq_lt.mpr h, Nat.compare_eq_gt.mpr h, Ordering.swap]
    · subst h; simp [Nat.compare_eq_eq.mpr rfl, Ordering.swap]
    · simp [Nat.compare_eq_lt.mpr h, Nat.compare_eq_gt.mpr h, Ordering.swap]
  lt_trans {a b d} hab hbd :=
    Nat.compare_eq_lt.mpr (Nat.lt_trans (Nat.compare_eq_lt.mp hab) (Nat.compare_eq_lt.mp hbd))
  eq_congr {a b} hab d := by
    have : a = b := Nat.compare_eq_eq.mp hab
    subst this; rfl

theorem charCmp_eq_iff {a b : Char} : charCmp a b = .eq ↔ a = b := by
  constructor
  · intro h
    exact Char.ext (UInt32.toNat.inj (Nat.compare_eq_eq.mp h))
  · intro h; subst h; exact Nat.compare_eq_eq.mpr rfl

theorem charCmpLaws : CmpLaws charCmp := natCmpLaws.onFn Char.toNat

theorem listCmp_eq_iff {c : α → α → Ordering} (hce : ∀ a b, c a b = .eq ↔ a = b) :
    ∀ as bs, listCmp c as bs = .eq ↔ as = bs := by
  intro as
  induction as with
  | nil => intro bs; cases bs <;> simp [listCmp]
  | cons a as ih =>
    intro bs
    cases bs with
    | nil => simp [listCmp]
    | cons b bs => simp [listCmp, Ordering.then_eq_eq, hce, ih]

theorem listCmpLaws {c : α → α → Ordering} (hc : CmpLaws c)
    (hce : ∀ a b, c a b = .eq ↔ a = b) : CmpLaws (listCmp c) where
  symm a b := by
    induction a generalizing b with
    | nil => cases b <;> simp [listCmp, Ordering.swap]
    | cons x xs ih =>
      cases b with
      | nil => simp [listCmp, Ordering.swap]
      | cons y ys => simp [listCmp, Ordering.swap_then, hc.symm, ih]
  lt_trans {a b d} hab hbd := by
    induction a generalizing b d with
    | nil =>
      cases b with
      | nil => simp [listCmp] at hab
      | cons y ys =>
        cases d with
        | nil => simp [listCmp] at hbd
        | cons z zs => simp [listCmp]
    | cons x xs ih =>
      cases b with
      | nil => simp [listCmp] at hab
      | cons y ys =>
        cases d with
        | nil => simp [listCmp] at hbd
        | cons z zs =>
          simp only [listCmp, Ordering.then_eq_lt] at hab hbd ⊢
          rcases hab with hab | ⟨hab, hab2⟩
          · rcases hbd with hbd | ⟨hbd, hbd2⟩
            · exact Or.inl (hc.lt_trans hab hbd)
            · have : y = z := (hce _ _).mp hbd
              subst this; exact Or.inl hab
          · have : x = y := (hce _ _).mp hab
            subst this
            rcases hbd with hbd | ⟨hbd, hbd2⟩
            · exact Or.inl hbd
            · exact Or.inr ⟨hbd, ih hab2 hbd2⟩
  eq_congr {a b} hab d := by
    have : a = b := (listCmp_eq_iff hce a b).mp hab
    subst this; rfl

theorem charListCmpLaws : CmpLaws (listCmp charCmp) :=
  listCmpLaws charCmpLaws (fun _ _ => charCmp_eq_iff)

theorem numPairLaws :
    CmpLaws (fun a b : List Char => (compare a.length b.length).then (listCmp charCmp a b)) :=
  (natCmpLaws.onFn List.length).thenCmp charListCmpLaws

theorem numPair_eq_iff (a b : List Char) :
    (compare a.length b.length).then (listCmp charCmp a b) = .eq ↔ a = b := by
  rw [Ordering.then_eq_eq]
  constructor
  · rintro ⟨-, h2⟩
    exact (listCmp_eq_iff (fun _ _ => charCmp_eq_iff) a b).mp h2
  · rintro rfl
    exact ⟨Nat.compare_eq_eq.mpr rfl, (listCmp_eq_iff (fun _ _ => charCmp_eq_iff) a a).mpr rfl⟩

theorem identPreCmp_eq_iff : ∀ a b, identPreCmp a b = .eq ↔ a = b := by
  intro a b
  cases ha : isNumericIdent a <;> cases hb : isNumericIdent b <;>
    simp only [identPreCmp, ha, hb]
  · exact listCmp_eq_iff (fun _ _ => charCmp_eq_iff) a b
  · constructor
    · intro h; exact absurd h (by decide)
    · intro h; subst h; rw [ha] at hb; exact Bool.noConfusion hb
  · constructor
    · intro h; exact absurd h (by decide)
    · intro h; subst h; rw [ha] at hb; exact Bool.noConfusion hb
  · exact numPair_eq_iff a b

theorem identPreCmpLaws : CmpLaws identPreCmp where
  symm a b := by
    cases ha : isNumericIdent a <;> cases hb : isNumericIdent b <;>
      simp only [identPreCmp, ha, hb]
    · exact charListCmpLaws.symm a b
    · rfl
    · rfl
    · exact numPairLaws.symm a b
  lt_trans {a b d} hab hbd := by
    cases ha : isNumericIdent a <;> cases hb : isNumericIdent b <;>
        cases hd : isNumericIdent d <;>
      simp only [identPreCmp, ha, hb, hd] at hab hbd ⊢
    · exact charListCmpLaws.lt_trans hab hbd
    · exact absurd hbd (by decide)
    · exact absurd hab (by decide)
    · exact absurd hab (by decide)
    · exact absurd hbd (by decide)
    · exact numPairLaws.lt_trans hab hbd
  eq_congr {a b} hab d := by
    have : a = b := (identPreCmp_eq_iff a b).mp hab
    subst this; rfl

theorem buildNumLaws :
    CmpLaws (fun a b : List Char =>
      ((compare (trimZeros a).length (trimZeros b).length).then
        (listCmp charCmp (trimZeros a) (trimZeros b))).then (compare a.length b.length)) :=
  ((natCmpLaws.onFn (fun s => (trimZeros s).length)).thenCmp
    (charListCmpLaws.onFn trimZeros)).thenCmp (natCmpLaws.onFn List.length)

/-- A digit-only string is its leading zeros followed by its zero-trimmed
value, and the leading-zero block is determined by the two lengths. -/
theorem leadingZeros_append (a : List Char) :
    a = List.replicate (a.length - (trimZeros a).length) '0' ++ trimZeros a := by
  have hsplit : a.takeWhile (· == '0') ++ trimZeros a = a :=
    List.takeWhile_append_dropWhile (· == '0') a
  have hmem : ∀ x ∈ a.takeWhile (· == '0'), x = '0' := by
    intro x hx
    have := List.mem_takeWhile_imp hx
    simpa using this
  have hrep : a.takeWhile (· == '0') =
      List.replicate (a.takeWhile (· == '0')).length '0' :=
    List.eq_replicate_of_mem hmem
  have hlen : (a.takeWhile (· == '0')).length = a.length - (trimZeros a).length := by
    have := congrArg List.length hsplit
    simp only [List.length_append] at this
    omega
  conv_lhs => rw [← hsplit]
  rw [hrep, hlen]

theorem buildNum_eq_iff (a b : List Char) :
    ((compare (trimZeros a).length (trimZeros b).length).then
      (listCmp charCmp (trimZeros a) (trimZeros b))).then (compare a.length b.length) = .eq ↔
      a = b := by
  rw [Ordering.then_eq_eq, Ordering.then_eq_eq]
  constructor
  · rintro ⟨⟨-, h2⟩, h3⟩
    have ht : trimZeros a = trimZeros b :=
      (listCmp_eq_iff (fun _ _ => charCmp_eq_iff) _ _).mp h2
    have hl : a.length = b.length := Nat.compare_eq_eq.mp h3
    calc a = List.replicate (a.length - (trimZeros a).length) '0' ++ trimZeros a :=
          leadingZeros_append a
      _ = List.replicate (b.length - (trimZeros b).length) '0' ++ trimZeros b := by
          rw [ht, hl]
      _ = b := (leadingZeros_append b).symm
  · rintro rfl
    exact ⟨⟨Nat.compare_eq_eq.mpr rfl,
      (listCmp_eq_iff (fun _ _ => charCmp_eq_iff) _ _).mpr rfl⟩, Nat.compare_eq_eq.mpr rfl⟩

theorem identBuildCmp_eq_iff : ∀ a b, identBuildCmp a b = .eq ↔ a = b := by
  intro a b
  cases ha : isNumericIdent a <;> cases hb : isNumericIdent b <;>
    simp only [identBuildCmp, ha, hb]
  · exact listCmp_eq_iff (fun _ _ => charCmp_eq_iff) a b
  · constructor
    · intro h; exact absurd h (by decide)
    · intro h; subst h; rw [ha] at hb; exact Bool.noConfusion hb
  · constructor
    · intro h; exact absurd h (by decide)
    · intro h; subst h; rw [ha] at hb; exact Bool.noConfusion hb
  · exact buildNum_eq_iff a b

theorem identBuildCmpLaws : CmpLaws identBuildCmp where
  symm a b := by
    cases ha : isNumericIdent a <;> cases hb : isNumericIdent b <;>
      simp only [identBuildCmp, ha, hb]
    · exact charListCmpLaws.symm a b
    · rfl
    · rfl
    · exact buildNumLaws.symm a b
  lt_trans {a b d} hab hbd := by
    cases ha : isNumericIdent a <;> cases hb : isNumericIdent b <;>
        cases hd : isNumericIdent d <;>
      simp only [identBuildCmp, ha, hb, hd] at hab hbd ⊢
    · exact charListCmpLaws.lt_trans hab hbd
    · exact absurd hbd (by decide)
    · exact absurd hab (by decide)
    · exact absurd hab (by decide)
    · exact absurd hbd (by decide)
    · exact buildNumLaws.lt_trans hab hbd
  eq_congr {a b} hab d := by
    have : a = b := (identBuildCmp_eq_iff a b).mp hab
    subst this; rfl

theorem preCmp_eq_iff : ∀ a b, preCmp a b = .eq ↔ a = b := by
  intro a b
  cases a with
  | nil => cases b <;> simp [preCmp]
  | cons x xs =>
    cases b with
    | nil => simp [preCmp]
    | cons y ys => exact listCmp_eq_iff identPreCmp_eq_iff _ _

theorem preCmpLaws : CmpLaws preCmp where
  symm a b := by
    cases a with
    | nil => cases b <;> rfl
    | cons x xs =>
      cases b with
      | nil => rfl
      | cons y ys => exact (listCmpLaws identPreCmpLaws identPreCmp_eq_iff).symm _ _
  lt_trans {a b d} hab hbd := by
    cases a with
    | nil =>
      cases b with
      | nil => simp [preCmp] at hab
      | cons y ys => simp [preCmp] at hab
    | cons x xs =>
      cases b with
      | nil =>
        cases d with
        | nil => simp [preCmp] at hbd
        | cons z zs => simp [preCmp] at hbd
      | cons y ys =>
        cases d with
        | nil => simp [preCmp]
        | cons z zs =>
          simp only [preCmp] at hab hbd ⊢
          exact (listCmpLaws identPreCmpLaws identPreCmp_eq_iff).lt_trans hab hbd
  eq_congr {a b} hab d := by
    have : a = b := (preCmp_eq_iff a b).mp hab
    subst this; rfl

theorem buildCmp_eq_iff : ∀ a b, buildCmp a b = .eq ↔ a = b :=
  listCmp_eq_iff identBuildCmp_eq_iff

theorem buildCmpLaws : CmpLaws buildCmp :=
  listCmpLaws identBuildCmpLaws identBuildCmp_eq_iff

theorem versionCmpLaws : CmpLaws versionCmp :=
  (natCmpLaws.onFn Version.major).thenCmp
    ((natCmpLaws.onFn Version.minor).thenCmp
      ((natCmpLaws.onFn Version.patch).thenCmp
        ((preCmpLaws.onFn Version.pre).thenCmp (buildCmpLaws.onFn Version.build))))

theorem versionCmp_eq_iff {a b : Version} : versionCmp a b = .eq ↔ a = b := by
  obtain ⟨a1, a2, a3, a4, a5⟩ := a
  obtain ⟨b1, b2, b3, b4, b5⟩ := b
  simp [versionCmp, Ordering.then_eq_eq, Nat.compare_eq_eq, preCmp_eq_iff, buildCmp_eq_iff,
    Version.mk.injEq, and_assoc]

theorem versionLe_trans {a b d : Version} (h1 : versionLe a b) (h2 : versionLe b d) :
    versionLe a d := by
  simp only [versionLe, decide_eq_true_eq] at h1 h2 ⊢
  exact versionCmpLaws.le_trans h1 h2

theorem versionLe_total (a b : Version) : versionLe a b || versionLe b a := by
  simp only [versionLe, Bool.or_eq_true, decide_eq_true_eq]
  exact versionCmpLaws.total a b

theorem versionLe_antisymm {a b : Version} (h1 : versionLe a b) (h2 : versionLe b a) :
    a = b := by
  simp only [versionLe, decide_eq_true_eq] at h1 h2
  cases hc : versionCmp a b with
  | gt => exact absurd hc h1
  | eq => exact versionCmp_eq_iff.mp hc
  | lt => exact absurd (versionCmpLaws.gt_iff_lt.mpr hc) h2

theorem versionLe_refl (a : Version) : versionLe a a := by
  simp only [versionLe, decide_eq_true_eq]
  rw [versionCmpLaws.refl a]
  decide

/-! ## Version resolution (`Cloner::clone_crate`, the selection half)

The source pairs every entry of the registry `versions` array with its
parsed semantic version, filters by the version requirement when one was
given, bails out when nothing is left, sorts unstably by the parsed
version and takes the last (greatest) element.  The payload type `α`
stands for the registry JSON object of one version;
the matching function of `semver::VersionReq` is an external-crate
function and appears as the `matcher` parameter. -/

/-- Failure of version selection
(`bail!("Could not find any matching versions.")`). -/
inductive ResolveErr where
  /-- No published version matched the requirement. -/
  | noMatchingVersion
deriving DecidableEq, Repr

/-- Comparison used by `versions.sort_unstable_by_key(|x| x.1.clone())`:
pairs are ordered by their parsed semantic version alone. -/
def pairLe (x y : α × Version) : Bool := versionLe x.2 y.2

/-- The versions the requirement keeps: everything when no requirement
was given, otherwise the matching ones (`versions.filter(...)`). -/
def keptVersions (matcher : Option (Version → Bool)) (versions : List (α × Version)) :
    List (α × Version) :=
  match matcher with
  | some req => versions.filter (fun x => req x.2)
  | none => versions

/-- Version selection of `Cloner::clone_crate`: filter, fail on empty,
sort by semantic version, take the last element. -/
def resolveVersion (matcher : Option (Version → Bool)) (versions : List (α × Version)) :
    Except ResolveErr (α × Version) :=
  let vs := keptVersions matcher versions
  if vs.isEmpty then .error .noMatchingVersion
  else
    match (vs.mergeSort pairLe).getLast? with
    | some last => .ok last
    | none => .error .noMatchingVersion

theorem pairLe_trans (x y z : α × Version) (h1 : pairLe x y) (h2 : pairLe y z) :
    pairLe x z := versionLe_trans h1 h2

theorem pairLe_total (x y : α × Version) : pairLe x y || pairLe y x :=
  versionLe_total x.2 y.2

/-- In a list that is pairwise `le`-sorted, the last element dominates
every element (given reflexivity of `le`). -/
theorem pairwise_le_getLast? {β : Type _} {le : β → β → Bool} (hrefl : ∀ x, le x x = true)
    {l : List β} (hp : l.Pairwise (fun x y => le x y = true)) {y : β}
    (hy : l.getLast? = some y) : ∀ x ∈ l, le x y = true := by
  induction l with
  | nil => simp at hy
  | cons a l ih =>
    cases l with
    | nil =>
      simp only [List.getLast?_singleton, Option.some.injEq] at hy
      subst hy
      intro x hx
      simp only [List.mem_singleton] at hx
      subst hx
      exact hrefl x
    | cons b l' =>
      rw [List.getLast?_cons_cons] at hy
      rw [List.pairwise_cons] at hp
      have hres := ih hp.2 hy
      intro x hx
      rcases List.mem_cons.mp hx with rfl | hx'
      · exact hp.1 y (List.mem_of_getLast?_eq_some hy)
      · exact hres x hx'

/-- The sorted copy of the kept versions used inside `resolveVersion`. -/
theorem resolveVersion_sorted_perm (matcher : Option (Version → Bool))
    (versions : List (α × Version)) :
    List.Perm ((keptVersions matcher versions).mergeSort pairLe)
      (keptVersions matcher versions) :=
  List.mergeSort_perm _ _

theorem resolveVersion_error_iff (matcher : Option (Version → Bool))
    (versions : List (α × Version)) :
    resolveVersion matcher versions = .error .noMatchingVersion ↔
      keptVersions matcher versions = [] := by
  unfold resolveVersion
  rcases he : (keptVersions matcher versions).isEmpty with _ | _
  · have hne : keptVersions matcher versions ≠ [] := by
      intro h; rw [h] at he; simp at he
    have hlen : ((keptVersions matcher versions).mergeSort pairLe).length =
        (keptVersions matcher versions).length :=
      (resolveVersion_sorted_perm matcher versions).length_eq
    have hsne : (keptVersions matcher versions).mergeSort pairLe ≠ [] := by
      intro h
      rw [h] at hlen
      exact hne (List.length_eq_zero.mp hlen.symm)
    rcases hl : ((keptVersions matcher versions).mergeSort pairLe).getLast? with _ | last
    · rw [List.getLast?_eq_none_iff] at hl
      exact absurd hl hsne
    · simp [he, hl, hne]
  · have : keptVersions matcher versions = [] := List.isEmpty_iff.mp he
    simp [he, this]

theorem resolveVersion_ok_max (matcher : Option (Version → Bool))
    (versions : List (α × Version)) (sel : α × Version)
    (h : resolveVersion matcher versions = .ok sel) :
    sel ∈ keptVersions matcher versions ∧
      ∀ x ∈ keptVersions matcher versions, versionLe x.2 sel.2 := by
  unfold resolveVersion at h
  rcases he : (keptVersions matcher versions).isEmpty with _ | _
  · simp only [he, Bool.false_eq_true, if_false] at h
    rcases hl : ((keptVersions matcher versions).mergeSort pairLe).getLast? with _ | last
    · rw [hl] at h; exact absurd h (by simp)
    · rw [hl] at h
      simp only [Except.ok.injEq] at h
      subst h
      have hsorted : ((keptVersions matcher versions).mergeSort pairLe).Pairwise
          (fun x y => pairLe x y = true) :=
        List.sorted_mergeSort (fun a b c => pairLe_trans a b c)
          (fun a b => pairLe_total a b) (keptVersions matcher versions)
      have hmax := pairwise_le_getLast? (fun x => versionLe_refl x.2) hsorted hl
      constructor
      · exact (resolveVersion_sorted_perm matcher versions).mem_iff.mp
          (List.mem_of_getLast?_eq_some hl)
      · intro x hx
        exact hmax x ((resolveVersion_sorted_perm matcher versions).mem_iff.mpr hx)
  · simp [he] at h

theorem resolveVersion_eq_form (matcher : Option (Version → Bool))
    (l : List (α × Version)) :
    resolveVersion matcher l =
      if (keptVersions matcher l).isEmpty then .error .noMatchingVersion
      else
        match ((keptVersions matcher l).mergeSort pairLe).getLast? with
        | some last => .ok last
        | none => .error .noMatchingVersion := rfl

theorem pairLe_ne_lt {x y : α × Version} (hle : pairLe x y = true) (hne : x.2 ≠ y.2) :
    versionCmp x.2 y.2 = .lt := by
  simp only [pairLe, versionLe, decide_eq_true_eq] at hle
  cases hc : versionCmp x.2 y.2 with
  | lt => rfl
  | eq => exact absurd (versionCmp_eq_iff.mp hc) hne
  | gt => exact absurd hc hle

/-- Version selection only depends on the set of versions: two
permutations of the same list with pairwise-distinct parsed versions
resolve identically (for the unstable sort of the source this is exactly
the distinctness of the sort keys). -/
theorem resolveVersion_perm (matcher : Option (Version → Bool))
    {l₁ l₂ : List (α × Version)} (hperm : List.Perm l₁ l₂)
    (hdist : l₁.Pairwise (fun x y => x.2 ≠ y.2)) :
    resolveVersion matcher l₁ = resolveVersion matcher l₂ := by
  have hk : List.Perm (keptVersions matcher l₁) (keptVersions matcher l₂) := by
    cases matcher with
    | none => exact hperm
    | some req => exact hperm.filter _
  have hkdist : (keptVersions matcher l₁).Pairwise (fun x y => x.2 ≠ y.2) := by
    cases matcher with
    | none => exact hdist
    | some req => exact hdist.sublist (List.filter_sublist _)
  have hps : List.Perm ((keptVersions matcher l₁).mergeSort pairLe)
      ((keptVersions matcher l₂).mergeSort pairLe) :=
    ((List.mergeSort_perm _ _).trans hk).trans (List.mergeSort_perm _ _).symm
  have hsorted₁ : ((keptVersions matcher l₁).mergeSort pairLe).Pairwise
      (fun x y => pairLe x y = true) :=
    List.sorted_mergeSort (fun a b c => pairLe_trans a b c) (fun a b => pairLe_total a b) _
  have hsorted₂ : ((keptVersions matcher l₂).mergeSort pairLe).Pairwise
      (fun x y => pairLe x y = true) :=
    List.sorted_mergeSort (fun a b c => pairLe_trans a b c) (fun a b => pairLe_total a b) _
  have hdist₁ : ((keptVersions matcher l₁).mergeSort pairLe).Pairwise
      (fun x y => x.2 ≠ y.2) :=
    ((List.mergeSort_perm _ _).pairwise_iff (fun h => Ne.symm h)).mpr hkdist
  have hdist₂ : ((keptVersions matcher l₂).mergeSort pairLe).Pairwise
      (fun x y => x.2 ≠ y.2) :=
    ((List.mergeSort_perm _ _).pairwise_iff (fun h => Ne.symm h)).mpr
      ((hk.pairwise_iff (fun h => Ne.symm h)).mp hkdist)
  have hstrict₁ : ((keptVersions matcher l₁).mergeSort pairLe).Pairwise
      (fun x y => versionCmp x.2 y.2 = .lt) :=
    (hsorted₁.and hdist₁).imp (fun h => pairLe_ne_lt h.1 h.2)
  have hstrict₂ : ((keptVersions matcher l₂).mergeSort pairLe).Pairwise
      (fun x y => versionCmp x.2 y.2 = .lt) :=
    (hsorted₂.and hdist₂).imp (fun h => pairLe_ne_lt h.1 h.2)
  haveI : IsAntisymm (α × Version) (fun x y => versionCmp x.2 y.2 = .lt) := by
    constructor
    intro a b hab hba
    have hlt := versionCmpLaws.lt_trans hab hba
    rw [versionCmpLaws.refl] at hlt
    exact absurd hlt (by decide)
  have hsort_eq : (keptVersions matcher l₁).mergeSort pairLe =
      (keptVersions matcher l₂).mergeSort pairLe :=
    List.eq_of_perm_of_sorted hps hstrict₁ hstrict₂
  have hemp : (keptVersions matcher l₁).isEmpty = (keptVersions matcher l₂).isEmpty := by
    have hlen := hk.length_eq
    rcases h1 : keptVersions matcher l₁ with _ | ⟨x, xs⟩ <;>
      rcases h2 : keptVersions matcher l₂ with _ | ⟨y, ys⟩ <;>
      rw [h1, h2] at hlen <;> simp_all
  rw [resolveVersion_eq_form, resolveVersion_eq_form, hemp, hsort_eq]

/-! ## Parsing and printing versions

Modelled from the `semver` crate's parser and `Display`, which
`check_semver_req` calls through `semver::Version::parse` and
`format!("={}", v)`. -/

/-- Digit character for a value below ten. -/
def digitChar (d : Nat) : Char := Char.ofNat (48 + d)

/-- Fuel-driven decimal printing (the fuel argument only makes the
recursion structural; `natDigits` supplies enough of it). -/
def natDigitsAux : Nat → Nat → List Char
  | 0, _ => []
  | fuel + 1, n =>
    if n < 10 then [digitChar n]
    else natDigitsAux fuel (n / 10) ++ [digitChar (n % 10)]

/-- Decimal digits of a natural number. -/
def natDigits (n : Nat) : List Char := natDigitsAux (n + 1) n

/-- Numeric value of a digit string. -/
def digitsToNat (ds : List Char) : Nat :=
  ds.foldl (fun acc c => acc * 10 + (c.toNat - 48)) 0

/-- Split a character list at every dot (Rust `str::split('.')`; the
empty input yields one empty segment, as in Rust). -/
def splitDots : List Char → List (List Char)
  | [] => [[]]
  | c :: rest =>
    let r := splitDots rest
    if c = '.' then [] :: r
    else
      match r with
      | s :: ss => (c :: s) :: ss
      | [] => [[c]]

/-- Parse a `u64` numeric component: a non-empty digit run with no
leading zero, whose value fits in 64 bits; returns the value and the
unconsumed rest. -/
def parseNum (cs : List Char) : Option (Nat × List Char) :=
  let ds := cs.takeWhile (·.isDigit)
  if ds.isEmpty then none
  else if 1 < ds.length ∧ ds.head? = some '0' then none
  else if 2 ^ 64 ≤ digitsToNat ds then none
  else some (digitsToNat ds, cs.drop ds.length)

/-- Consume one expected character. -/
def expectChar (c : Char) : List Char → Option (List Char)
  | [] => none
  | x :: rest => if x = c then some rest else none

/-- Characters allowed inside pre-release/build identifiers. -/
def isIdentChar (c : Char) : Bool := c.isAlphanum || c = '-'

/-- Is a segment a valid identifier?  Pre-release identifiers
(`allowZeros = false`) reject digit-only segments with a leading zero;
build-metadata identifiers allow them. -/
def validIdent (allowZeros : Bool) (s : List Char) : Bool :=
  !s.isEmpty && s.all isIdentChar &&
    (allowZeros || !(isNumericIdent s && decide (1 < s.length) && s.head? == some '0'))

/-- Parse a dot-separated identifier list. -/
def parseIdentList (allowZeros : Bool) (cs : List Char) : Option (List (List Char)) :=
  let segs := splitDots cs
  if segs.all (validIdent allowZeros) then some segs else none

/-- Parse the `+build` tail. -/
def parseBuildTail (maj mino pat : Nat) (pre : List (List Char)) (r : List Char) :
    Option Version := do
  let b ← parseIdentList true r
  some ⟨maj, mino, pat, pre, b⟩

/-- Parse what follows the pre-release identifiers: nothing, or a
`+build` tail. -/
def parseAfterPre (maj mino pat : Nat) (pre : List (List Char)) :
    List Char → Option Version
  | [] => some ⟨maj, mino, pat, pre, []⟩
  | c2 :: r7 => if c2 = '+' then parseBuildTail maj mino pat pre r7 else none

/-- Parse the `-pre[+build]` tail (the pre-release part runs to the
first `+`, which cannot occur inside an identifier). -/
def parsePreTail (maj mino pat : Nat) (r6 : List Char) : Option Version := do
  let pre ← parseIdentList false (r6.takeWhile (· ≠ '+'))
  parseAfterPre maj mino pat pre (r6.drop (r6.takeWhile (· ≠ '+')).length)

/-- Parse what follows `major.minor.patch`: nothing, a pre-release
part, or build metadata. -/
def parseTail (maj mino pat : Nat) : List Char → Option Version
  | [] => some ⟨maj, mino, pat, [], []⟩
  | c :: r6 =>
    if c = '-' then parsePreTail maj mino pat r6
    else if c = '+' then parseBuildTail maj mino pat [] r6
    else none

/-- Parse a full semantic version, `major.minor.patch[-pre][+build]`
(`semver::Version::parse`). -/
def parseVersion (version : String) : Option Version := do
  let (maj, r1) ← parseNum version.data
  let r2 ← expectChar '.' r1
  let (mino, r3) ← parseNum r2
  let r4 ← expectChar '.' r3
  let (pat, r5) ← parseNum r4
  parseTail maj mino pat r5

/-- Join identifier segments with dots. -/
def joinDots : List (List Char) → List Char
  | [] => []
  | [s] => s
  | s :: rest => s ++ '.' :: joinDots rest

/-- Render a version the way `Display for semver::Version` does:
`major.minor.patch`, then `-pre` and `+build` when present. -/
def displayVersionCs (v : Version) : List Char :=
  natDigits v.major ++ '.' :: natDigits v.minor ++ '.' :: natDigits v.patch
    ++ (if v.pre.isEmpty then [] else '-' :: joinDots v.pre)
    ++ (if v.build.isEmpty then [] else '+' :: joinDots v.build)

/-! ## Version-requirement normalization (`check_semver_req`) -/

/-- Failures of `check_semver_req` (each one an `anyhow` error in the
source). -/
inductive SemverErr where
  /-- The version string was empty (`anyhow!("version is empty")`). -/
  | emptyVersion
  /-- The range expression did not parse (`semver::VersionReq` parse
  error, propagated by `?`). -/
  | invalidReq (msg : String)
  /-- The exact version did not parse (context message naming the
  input). -/
  | notValidSemver (version : String)
deriving DecidableEq, Repr

/-- The branch test of `check_semver_req`: first character among
`< > = ^ ~`, or a `*` anywhere. -/
def isReqSyntax (version : String) : Bool :=
  match version.data with
  | [] => false
  | first :: _ => "<>=^~".data.contains first || version.data.contains '*'

/-- Direct model of `check_semver_req` in `src/lib.rs`: empty input is
an error; range-looking input goes to the `semver::VersionReq` parser
(the external `reqParse` parameter, standing for
`version.parse::<VersionReq>()?.to_string()`); anything else must parse
as an exact version and is wrapped as `={version}`. -/
def check_semver_req (reqParse : String → Except String String) (version : String) :
    Except SemverErr String :=
  match version.data with
  | [] => .error .emptyVersion
  | _ :: _ =>
    if isReqSyntax version then
      match reqParse version with
      | .ok s => .ok s
      | .error e => .error (.invalidReq e)
    else
      match parseVersion version with
      | some v => .ok (String.mk ('=' :: displayVersionCs v))
      | none => .error (.notValidSemver version)

/-! ## The clone control flow (`Cloner::clone`) -/

/-- Errors of the clone pipeline (`bail!` sites of `Cloner::clone`).
`panicAuto` stands for the `unreachable!()` arm, which aborts instead of
returning an error. -/
inductive CloneErr where
  /-- Both a `:version` in the spec and `--version` were given. -/
  | bothVersions
  /-- The version string failed `check_semver_req`. -/
  | semver (e : SemverErr)
  /-- No repository path found on crates.io with an explicit VCS
  method. -/
  | missingRepo
  /-- Hosting detection failed (message of the `detect_repo` bail). -/
  | detectFailed (msg : String)
  /-- Extra arguments with the crate method. -/
  | extraArgs
  /-- A version requirement combined with a VCS method. -/
  | versionWithMethod (req : String)
  /-- The `unreachable!()` arm: `Auto` survived method resolution. -/
  | panicAuto
deriving DecidableEq, Repr

/-- The terminal effect `Cloner::clone` would perform. -/
inductive CloneAction where
  /-- Download and unpack a `.crate` file (`Cloner::clone_crate`). -/
  | downloadCrate (name : String) (versionReq : Option String)
  /-- Spawn `{cmd} clone {repo} {extra...}` (`Cloner::run_clone`). -/
  | runClone (cmd : String) (repo : String) (extra : List String)
deriving DecidableEq, Repr

/-- Split on the first `:` or `@`, part of `Cloner::clone`
(`spec.splitn(2, &[':', '@'])`). -/
def splitSpecCs : List Char → List Char × Option (List Char)
  | [] => ([], none)
  | c :: rest =>
    if c = ':' ∨ c = '@' then ([], some rest)
    else
      let (n, v) := splitSpecCs rest
      (c :: n, v)

/-- The package name and the optional embedded version token of a spec
string. -/
def splitSpec (spec : String) : String × Option String :=
  let (n, v) := splitSpecCs spec.data
  (String.mk n, v.map String.mk)

/-- The method-resolution `match` of `Cloner::clone` (lines 225-242):
`Auto` turns into the crate method when a version requirement is present
or no repository is declared and otherwise defers to hosting detection;
the crate method stands; an explicit VCS method demands a declared
repository and keeps it verbatim. -/
def resolveMethod (detect : String → Except CloneErr (CloneMethodKind × String))
    (method_kind : CloneMethodKind) (version_req : Option String)
    (repo : Option String) : Except CloneErr (CloneMethodKind × String) :=
  match method_kind with
  | .Auto =>
    if version_req.isSome then .ok (.Crate, "")
    else
      match repo with
      | some r => detect r
      | none => .ok (.Crate, "")
  | .Crate => .ok (.Crate, "")
  | _ =>
    match repo with
    | none => .error .missingRepo
    | some r => .ok (method_kind, r)

/-- The pure decision core of `Cloner::clone`: spec splitting, the
double-version check, version-requirement parsing, method resolution,
and the final dispatch.  `reqParse` stands for the external
`semver::VersionReq` parser, `detect` for `Cloner::detect_repo`
(which performs network I/O for Bitbucket), and `repo` for the
repository/homepage location `get_repo` extracted from the package
info. -/
def clone (reqParse : String → Except String String)
    (detect : String → Except CloneErr (CloneMethodKind × String))
    (method_kind : CloneMethodKind) (spec : String) (version : Option String)
    (extra : List String) (repo : Option String) : Except CloneErr CloneAction :=
  let (name, spec_version_req) := splitSpec spec
  if spec_version_req.isSome ∧ version.isSome then .error .bothVersions
  else
    let parsed : Except CloneErr (Option String) :=
      match version.or spec_version_req with
      | none => .ok none
      | some s =>
        match check_semver_req reqParse s with
        | .ok r => .ok (some r)
        | .error e => .error (.semver e)
    match parsed with
    | .error e => .error e
    | .ok version_req =>
      match resolveMethod detect method_kind version_req repo with
      | .error e => .error e
      | .ok (method, repo') =>
        match method with
        | .Crate =>
          if extra ≠ [] then .error .extraArgs
          else .ok (.downloadCrate name version_req)
        | .Auto => .error .panicAuto
        | _ =>
          match version_req with
          | some r => .error (.versionWithMethod r)
          | none => .ok (.runClone method.command repo' extra)

/-! ## Hosting detection (`Cloner::detect_repo`)

The source matches the repository URL against the regular expression
`https?://(?:www\.)?HOST/([^\/]+)/([^\/]+)` (with `HOST` one of
`github.com`, `gitlab.com`, `bitbucket.(?:org|com)`), using unanchored
search.  The matcher below implements exactly that pattern: a scan over
the start positions (leftmost match), greedy maximal `[^/]+` segments,
and ordered alternation for the optional `www.` and the host list. -/

/-- Match one `[^/]+` capture group: the maximal non-empty run of
characters other than `/`, plus the rest. -/
def matchSeg (cs : List Char) : Option (List Char × List Char) :=
  let seg := cs.takeWhile (· ≠ '/')
  if seg.isEmpty then none else some (seg, cs.drop seg.length)

/-- Match `HOST/owner/repo` and return the two captures. -/
def matchHostTail (host : List Char) (cs : List Char) :
    Option (List Char × List Char) := do
  let r1 ← stripPrefixCs (host ++ ['/']) cs
  let (owner, r2) ← matchSeg r1
  let r3 ← stripPrefixCs ['/'] r2
  let (name, _) ← matchSeg r3
  some (owner, name)

/-- Ordered alternation over the host spellings. -/
def matchHosts (hosts : List (List Char)) (cs : List Char) :
    Option (List Char × List Char) :=
  match hosts with
  | [] => none
  | h :: hs =>
    match matchHostTail h cs with
    | some r => some r
    | none => matchHosts hs cs

/-- Match the whole pattern at one start position: `http`, an optional
`s`, `://`, an optional `www.` (with backtracking), then the host and
the two captures. -/
def matchHostAt (hosts : List (List Char)) (cs : List Char) :
    Option (List Char × List Char) := do
  let r1 ← stripPrefixCs "http".data cs
  let r2 ←
    match stripPrefixCs "s://".data r1 with
    | some r => some r
    | none => stripPrefixCs "://".data r1
  match stripPrefixCs "www.".data r2 with
  | some r3 =>
    match matchHosts hosts r3 with
    | some res => some res
    | none => matchHosts hosts r2
  | none => matchHosts hosts r2

/-- Unanchored leftmost search: try the matcher at every start position
from the left. -/
def scanFind (f : List Char → Option β) : List Char → Option β
  | [] => f []
  | c :: cs =>
    match f (c :: cs) with
    | some r => some r
    | none => scanFind f cs

/-- Outcome of `Cloner::detect_repo`: either a fully resolved
method/location pair, or a Bitbucket owner/name pair that the source
resolves with a network call to the Bitbucket API
(`Cloner::bitbucket`). -/
inductive DetectStep where
  /-- The method and clone location are already determined. -/
  | resolved (method : CloneMethodKind) (location : String)
  /-- Delegate to the Bitbucket disambiguation call. -/
  | bitbucketLookup (user name : String)
deriving DecidableEq, Repr

/-- Direct model of `Cloner::detect_repo`, rules in source order:
a `.git` suffix wins unchanged; then the GitHub pattern rewrites to
`{github_url}/{owner}/{repo}.git`; then GitLab likewise; then Bitbucket
delegates to the API lookup; then the Pijul nest prefix; otherwise the
`bail!` message. -/
def detect_repo (github_url gitlab_url : String) (repo : String) :
    Except String DetectStep :=
  if endsWithCs repo.data ".git".data then .ok (.resolved .Git repo)
  else
    match scanFind (matchHostAt ["github.com".data]) repo.data with
    | some (owner, name) =>
      .ok (.resolved .Git
        (github_url ++ "/" ++ String.mk owner ++ "/" ++ String.mk name ++ ".git"))
    | none =>
      match scanFind (matchHostAt ["gitlab.com".data]) repo.data with
      | some (owner, name) =>
        .ok (.resolved .Git
          (gitlab_url ++ "/" ++ String.mk owner ++ "/" ++ String.mk name ++ ".git"))
      | none =>
        match scanFind (matchHostAt ["bitbucket.org".data, "bitbucket.com".data])
            repo.data with
        | some (user, name) => .ok (.bitbucketLookup (String.mk user) (String.mk name))
        | none =>
          if startsWithCs repo.data "https://nest.pijul.com/".data then
            .ok (.resolved .Pijul repo)
          else
            .error ("Could not determine the VCS from repo `" ++ repo ++
              "`, use the `--method` option to specify how to download.")

/-! ## Archive extraction (`Cloner::clone_crate`, the unpacking half)

Entry paths are modelled as their component lists; `Path::starts_with`
on the single-component prefix `base` holds exactly when the first
component equals `base`. -/

/-- The `bail!` payload of the tarball sanity check: the expected prefix
and the offending entry path. -/
structure ExtractErr where
  /-- The expected `{name-lowercased}-{version}` prefix. -/
  expected : String
  /-- The offending entry path (components). -/
  found : List String
deriving DecidableEq, Repr

/-- The `Path::starts_with` check of the extraction loop: the first
component of the entry path must equal the expected base directory. -/
def pathStartsWith (path : List String) (base : String) : Bool :=
  match path with
  | [] => false
  | c :: _ => decide (c = base)

/-- The entry loop of `Cloner::clone_crate`: process entries in order,
unpack (here: record) each entry whose path starts with `base`, and stop
with the `Expected path ... in tarball` error at the first entry that
does not, leaving the already-written entries in place. -/
def extractLoop (base : String) : List (List String) → List (List String) × Option ExtractErr
  | [] => ([], none)
  | p :: rest =>
    if pathStartsWith p base then
      let (written, err) := extractLoop base rest
      (p :: written, err)
    else ([], some ⟨base, p⟩)

/-- Extraction with the expected prefix derived as in the source:
`format!("{}-{}", name.to_lowercase(), version)`. -/
def clone_crate_extract (name version : String) (entries : List (List String)) :
    List (List String) × Option ExtractErr :=
  extractLoop (String.mk (lowerCs name.data) ++ "-" ++ version) entries

/-! ## Bitbucket response handling (`Cloner::bitbucket`)

The JSON body is modelled structurally; `serde_json`'s `Value` indexing
returns `Null` for a missing key or a non-object.  The `expect` calls of
the source abort the process (a panic), which the result type records
separately from the `bail!` error path. -/

/-- A JSON value (`serde_json::Value`; numbers are irrelevant here). -/
inductive Json where
  /-- The `null` value. -/
  | null
  /-- A boolean. -/
  | bool (b : Bool)
  /-- A number (modelled as an integer; never inspected here). -/
  | num (n : Int)
  /-- A string. -/
  | str (s : String)
  /-- An array. -/
  | arr (items : List Json)
  /-- An object, as an ordered field list. -/
  | obj (fields : List (String × Json))

/-- Field access `value[key]`: the first field with that name, `Null`
when absent or when the value is not an object. -/
def Json.index (j : Json) (key : String) : Json :=
  match j with
  | .obj fields =>
    match fields.find? (fun f => decide (f.1 = key)) with
    | some f => f.2
    | none => .null
  | _ => .null

/-- The `Value::as_str` accessor. -/
def Json.asStr : Json → Option String
  | .str s => some s
  | _ => none

/-- The `Value::as_array` accessor. -/
def Json.asArr : Json → Option (List Json)
  | .arr items => some items
  | _ => none

/-- Outcome of the Bitbucket body processing: a method/URL pair, an
error returned to the caller (`bail!`), or a process abort
(`expect`). -/
inductive BitbucketResult where
  /-- Successful disambiguation. -/
  | ok (method : CloneMethodKind) (url : String)
  /-- An error value returned to the caller. -/
  | err (msg : String)
  /-- A panic: the process aborts with this message and no error value
  reaches the caller. -/
  | panicked (msg : String)
deriving DecidableEq, Repr

/-- Outcome of the `clones.iter().find(...)` search, whose closure
panics when an entry has no string `name`. -/
inductive FindHttps where
  /-- An entry named `https` was found. -/
  | found (c : Json)
  /-- No entry matched. -/
  | missing
  /-- The closure panicked on a malformed entry. -/
  | panicked (msg : String)

/-- The `find` over the clone-link list in `Cloner::bitbucket`. -/
def findHttpsClone : List Json → FindHttps
  | [] => .missing
  | c :: rest =>
    match (c.index "name").asStr with
    | none => .panicked "Could not get clone `name` from bitbucket."
    | some n => if n = "https" then .found c else findHttpsClone rest

/-- Direct model of the body-processing part of `Cloner::bitbucket`
(after the HTTP status check and JSON parse): read `scm` (panicking when
absent), map it to a method (`bail!` on an unexpected system), read the
clone-link array (panicking when absent), find the `https` entry
(panicking when absent), and read its `href` (panicking when absent). -/
def bitbucket_process (body : Json) : BitbucketResult :=
  match (body.index "scm").asStr with
  | none => .panicked "Could not get `scm` from bitbucket."
  | some scm =>
    match (if scm = "git" then some CloneMethodKind.Git
           else if scm = "hg" then some CloneMethodKind.Mercurial
           else none) with
    | none => .err ("Unexpected bitbucket scm: `" ++ scm ++ "`")
    | some method =>
      match ((body.index "links").index "clone").asArr with
      | none => .panicked "Could not get `clone` from bitbucket."
      | some clones =>
        match findHttpsClone clones with
        | .panicked msg => .panicked msg
        | .missing => .panicked "Could not find `https` clone in bitbucket."
        | .found c =>
          match (c.index "href").asStr with
          | none => .panicked "Could not get clone `href` from bitbucket."
          | some href => .ok method href

/-- Does the bitbucket outcome carry an error value that the caller
receives? -/
def BitbucketResult.isErr : BitbucketResult → Bool
  | .err _ => true
  | _ => false

/-! # Claims

One theorem per claim of the specification, with witnesses and
counterexamples where required. -/

/-- C10: the method-name mapping round-trips — `CloneMethodKind::from`
applied to `command()` of any of the six kinds returns that kind;
`from` also accepts the alias `mercurial` for the Mercurial kind, and
returns `None` on every other string. -/
theorem cloneMethodKind_name_roundtrip :
    (∀ k : CloneMethodKind, CloneMethodKind.ofName k.command = some k) ∧
    CloneMethodKind.ofName "mercurial" = some .Mercurial ∧
    (∀ s : String, s ∉ ["crate", "git", "hg", "mercurial", "pijul", "fossil", "auto"] →
      CloneMethodKind.ofName s = none) := by
  refine ⟨?_, by decide, ?_⟩
  · intro k; cases k <;> decide
  · intro s hs
    simp only [List.mem_cons, List.not_mem_nil, or_false, not_or] at hs
    obtain ⟨h1, h2, h3, h4, h5, h6, h7⟩ := hs
    simp [CloneMethodKind.ofName, h1, h2, h3, h4, h5, h6, h7]

/-- Witness for C10 at concrete inputs. -/
theorem cloneMethodKind_name_roundtrip_witness :
    CloneMethodKind.ofName (CloneMethodKind.command .Fossil) = some .Fossil ∧
    CloneMethodKind.ofName "bogus" = none :=
  ⟨cloneMethodKind_name_roundtrip.1 .Fossil,
    cloneMethodKind_name_roundtrip.2.2 "bogus" (by decide)⟩

/-- C9: a spec string with an embedded version token after the first
`:` or `@`, combined with an explicitly supplied version argument,
makes `Cloner::clone` fail with the `Cannot specify both a :version and
--version.` error, whatever the two version values are (they are not
parsed or compared first). -/
theorem clone_both_versions (reqParse : String → Except String String)
    (detect : String → Except CloneErr (CloneMethodKind × String))
    (method_kind : CloneMethodKind) (spec : String) (version : Option String)
    (extra : List String) (repo : Option String)
    (hspec : (splitSpec spec).2.isSome) (hver : version.isSome) :
    clone reqParse detect method_kind spec version extra repo = .error .bothVersions := by
  obtain ⟨v, rfl⟩ := Option.isSome_iff_exists.mp hver
  unfold clone
  rcases h1 : splitSpec spec with ⟨name, sv⟩
  rw [h1] at hspec
  obtain ⟨s, rfl⟩ := Option.isSome_iff_exists.mp hspec
  simp

/-- Witness for C9: the repository's own regression test input
(`foo:1.2.3` with `--version 1.2.3`). -/
theorem clone_both_versions_witness :
    clone (fun s => .ok s) (fun r => .ok (.Git, r)) .Crate "foo:1.2.3" (some "1.2.3") [] none =
      .error .bothVersions :=
  clone_both_versions _ _ _ _ _ _ _ (by decide) (by decide)

/-- C7: in `Auto` mode with a version requirement present, method
resolution returns the crate method with an empty target, for every
hosting-detection function and whether or not a repository is declared
(the quantification over `detect` shows detection is never consulted). -/
theorem resolveMethod_auto_with_version
    (detect : String → Except CloneErr (CloneMethodKind × String))
    (version_req : Option String) (repo : Option String)
    (h : version_req.isSome) :
    resolveMethod detect .Auto version_req repo = .ok (.Crate, "") := by
  unfold resolveMethod
  simp [h]

/-- Witness for C7: a repository is declared and detection would pick
`git`, yet the version requirement forces the crate method. -/
theorem resolveMethod_auto_with_version_witness :
    resolveMethod (fun r => .ok (.Git, r)) .Auto (some "=1.0.0")
      (some "https://github.com/a/b") = .ok (.Crate, "") :=
  resolveMethod_auto_with_version _ _ _ (by decide)

/-- C1 counterexample: with the method `git`, a version constraint and
no declared repository, `Cloner::clone` fails with the
missing-repository error, not with the version-with-VCS-method error
the claim predicts (the repository check of the method-resolution
`match` runs before the version check of the dispatch `match`). -/
theorem clone_vcs_version_counterexample :
    clone (fun s => .ok s) (fun r => .ok (.Git, r)) .Git "foo" (some "1.0.0") [] none =
      .error .missingRepo ∧
    CloneErr.missingRepo ≠ .versionWithMethod "=1.0.0" := by
  constructor
  · decide
  · decide

/-- C1 amended: an explicit VCS method (`git`, `hg`, `pijul`, `fossil`)
with a version constraint fails with the
`Specifying a version ... only works with the crate method` error
whenever the package declares a repository; when it declares none, the
missing-repository error fires instead. -/
theorem clone_vcs_version_rejection (reqParse : String → Except String String)
    (detect : String → Except CloneErr (CloneMethodKind × String))
    (method_kind : CloneMethodKind) (spec : String) (vstr : String)
    (extra : List String) (repo : Option String) (q : String)
    (hm : method_kind = .Git ∨ method_kind = .Mercurial ∨ method_kind = .Pijul ∨
      method_kind = .Fossil)
    (hspec : (splitSpec spec).2 = none)
    (hq : check_semver_req reqParse vstr = .ok q) :
    clone reqParse detect method_kind spec (some vstr) extra repo =
      match repo with
      | some _ => .error (.versionWithMethod q)
      | none => .error .missingRepo := by
  unfold clone
  rcases h1 : splitSpec spec with ⟨name, sv⟩
  rw [h1] at hspec
  subst hspec
  simp only [Option.isSome_none, Bool.false_eq_true, and_false, if_false, Option.or_none,
    Option.isSome_some, hq]
  rcases hm with rfl | rfl | rfl | rfl <;>
    rcases repo with _ | r <;>
    simp [resolveMethod, CloneMethodKind.command]

/-- Witness for C1 (amended), both repository cases at concrete
inputs. -/
theorem clone_vcs_version_rejection_witness :
    clone (fun s => .ok s) (fun r => .ok (.Git, r)) .Git "bitflags" (some "1.2.3") []
        (some "https://github.com/bitflags/bitflags") =
      .error (.versionWithMethod "=1.2.3") ∧
    clone (fun s => .ok s) (fun r => .ok (.Git, r)) .Pijul "foo" (some "1.2.3") [] none =
      .error .missingRepo :=
  ⟨clone_vcs_version_rejection _ _ _ _ _ _ _ "=1.2.3" (by decide) (by decide) (by decide),
    clone_vcs_version_rejection _ _ _ _ _ _ _ "=1.2.3" (by decide) (by decide) (by decide)⟩

/-- Closed form of the extraction loop: the written entries are the
longest prefix of entries under the expected base, and the error names
the base and the first offending entry. -/
theorem extractLoop_eq (base : String) (entries : List (List String)) :
    extractLoop base entries =
      (entries.takeWhile (fun p => pathStartsWith p base),
        match entries.dropWhile (fun p => pathStartsWith p base) with
        | [] => none
        | p :: _ => some ⟨base, p⟩) := by
  induction entries with
  | nil => rfl
  | cons p rest ih =>
    by_cases h : pathStartsWith p base = true
    · simp [extractLoop, h, List.takeWhile_cons, List.dropWhile_cons, ih]
    · simp [extractLoop, h, List.takeWhile_cons, List.dropWhile_cons]

/-- C2: extraction derives the expected prefix
`{name-lowercased}-{version}` and walks the entries in order: the
written entries are exactly the longest prefix of entries whose paths
start with the expected prefix, and at the first other entry the loop
stops with the error naming the expected prefix and the offending path
(nothing after it is written; everything before it stays written).
The two concrete cases instantiate the specification's example. -/
theorem clone_crate_extract_spec :
    (∀ (name version : String) (entries : List (List String)),
      clone_crate_extract name version entries =
        (entries.takeWhile
            (fun p => pathStartsWith p (String.mk (lowerCs name.data) ++ "-" ++ version)),
          match entries.dropWhile
              (fun p => pathStartsWith p (String.mk (lowerCs name.data) ++ "-" ++ version)) with
          | [] => none
          | p :: _ => some ⟨String.mk (lowerCs name.data) ++ "-" ++ version, p⟩)) ∧
    clone_crate_extract "widgets" "1.0.0" [["other-1.0.0", "src", "lib"]] =
      ([], some ⟨"widgets-1.0.0", ["other-1.0.0", "src", "lib"]⟩) ∧
    clone_crate_extract "widgets" "1.0.0"
        [["widgets-1.0.0", "Cargo.toml"], ["other-1.0.0", "src", "lib"],
          ["widgets-1.0.0", "src"]] =
      ([["widgets-1.0.0", "Cargo.toml"]],
        some ⟨"widgets-1.0.0", ["other-1.0.0", "src", "lib"]⟩) := by
  refine ⟨?_, by decide, by decide⟩
  intro name version entries
  exact extractLoop_eq _ entries

/-- Strings with equal character lists are equal. -/
theorem string_ext {s t : String} (h : s.data = t.data) : s = t := by
  cases s; cases t; exact congrArg String.mk h

/-- Helper for C6: the `.git` suffix rule of `detect_repo`. -/
theorem detect_repo_gitSuffix (github_url gitlab_url : String) (repo : String)
    (h : endsWithCs repo.data ".git".data = true) :
    detect_repo github_url gitlab_url repo = .ok (.resolved .Git repo) := by
  unfold detect_repo
  simp [h]

/-- Helper for C6: the GitHub rewrite rule of `detect_repo`. -/
theorem detect_repo_github (github_url gitlab_url : String) (repo : String)
    (owner name : List Char) (h : endsWithCs repo.data ".git".data = false)
    (hm : scanFind (matchHostAt ["github.com".data]) repo.data = some (owner, name)) :
    detect_repo github_url gitlab_url repo =
      .ok (.resolved .Git
        (github_url ++ "/" ++ String.mk owner ++ "/" ++ String.mk name ++ ".git")) := by
  unfold detect_repo
  simp [h, hm]

/-- C6: the hosting rules run in order with the first match winning —
every location ending in `.git` resolves to Git unchanged (even a
github.com location, covered by the witness), and otherwise every
location the GitHub pattern matches resolves to Git at
`{github-base}/{owner}/{repo}.git`; in particular
`https://github.com/acme/widgets` becomes `{github-base}/acme/widgets.git`. -/
theorem detect_repo_rules (github_url gitlab_url : String) (repo : String) :
    (endsWithCs repo.data ".git".data = true →
      detect_repo github_url gitlab_url repo = .ok (.resolved .Git repo)) ∧
    (∀ owner name, endsWithCs repo.data ".git".data = false →
      scanFind (matchHostAt ["github.com".data]) repo.data = some (owner, name) →
      detect_repo github_url gitlab_url repo =
        .ok (.resolved .Git
          (github_url ++ "/" ++ String.mk owner ++ "/" ++ String.mk name ++ ".git"))) ∧
    detect_repo github_url gitlab_url "https://github.com/acme/widgets" =
      .ok (.resolved .Git (github_url ++ "/acme/widgets.git")) ∧
    detect_repo github_url gitlab_url "http://www.github.com/a/b/extra" =
      .ok (.resolved .Git (github_url ++ "/a/b.git")) := by
  refine ⟨detect_repo_gitSuffix github_url gitlab_url repo,
    fun owner name h hm => detect_repo_github github_url gitlab_url repo owner name h hm,
    ?_, ?_⟩
  · rw [detect_repo_github github_url gitlab_url _ "acme".data "widgets".data (by decide)
      (by decide)]
    refine congrArg (fun s => Except.ok (DetectStep.resolved .Git s)) ?_
    apply string_ext
    simp only [String.data_append, List.append_assoc]
    congr 1
  · rw [detect_repo_github github_url gitlab_url _ "a".data "b".data (by decide)
      (by decide)]
    refine congrArg (fun s => Except.ok (DetectStep.resolved .Git s)) ?_
    apply string_ext
    simp only [String.data_append, List.append_assoc]
    congr 1

/-- Witness for C6: the `.git` rule applies unchanged even to a
github.com URL, and the concrete GitHub example rewrites. -/
theorem detect_repo_rules_witness :
    detect_repo "https://github.com" "https://gitlab.com" "https://github.com/a/b.git" =
      .ok (.resolved .Git "https://github.com/a/b.git") ∧
    detect_repo "https://github.com" "https://gitlab.com" "https://github.com/acme/widgets" =
      .ok (.resolved .Git ("https://github.com" ++ "/acme/widgets.git")) :=
  ⟨(detect_repo_rules "https://github.com" "https://gitlab.com"
      "https://github.com/a/b.git").1 (by decide),
    (detect_repo_rules "https://github.com" "https://gitlab.com"
      "https://github.com/acme/widgets").2.2.1⟩

/-- C4 counterexample: a successful Bitbucket response whose body lacks
the `scm` field does not produce an error value surfaced to the caller —
the `expect` call panics (aborts the process) instead, so no error
chain ever reaches the caller. -/
theorem bitbucket_malformed_counterexample :
    bitbucket_process (Json.obj []) = .panicked "Could not get `scm` from bitbucket." ∧
    (bitbucket_process (Json.obj [])).isErr = false := by
  exact ⟨by decide, by decide⟩

/-- Helper for C4: the clone-link search misses when every entry has a
string name other than `https`. -/
theorem findHttpsClone_missing (clones : List Json)
    (h : ∀ c ∈ clones, ∃ n, (c.index "name").asStr = some n ∧ n ≠ "https") :
    findHttpsClone clones = .missing := by
  induction clones with
  | nil => rfl
  | cons c rest ih =>
    obtain ⟨n, hn, hne⟩ := h c (List.mem_cons_self c rest)
    unfold findHttpsClone
    rw [hn]
    simp only [hne, if_false, if_neg hne]
    exact ih (fun c' hc' => h c' (List.mem_cons_of_mem c hc'))

/-- C4 amended: for a successful Bitbucket response parsed into a JSON
body, a missing/non-string `scm` field, a missing/non-array clone-link
list, and the absence of an `https`-named clone entry each make the
procedure panic with a fixed message naming the missing piece, rather
than return a `MalformedHostingResponse`-style error value with a
preserved cause chain (only the unexpected-`scm` case is a returned
error). -/
theorem bitbucket_malformed_panics (body : Json) :
    ((body.index "scm").asStr = none →
      bitbucket_process body = .panicked "Could not get `scm` from bitbucket.") ∧
    (∀ scm, (body.index "scm").asStr = some scm → (scm = "git" ∨ scm = "hg") →
      ((body.index "links").index "clone").asArr = none →
      bitbucket_process body = .panicked "Could not get `clone` from bitbucket.") ∧
    (∀ scm clones, (body.index "scm").asStr = some scm → (scm = "git" ∨ scm = "hg") →
      ((body.index "links").index "clone").asArr = some clones →
      (∀ c ∈ clones, ∃ n, (c.index "name").asStr = some n ∧ n ≠ "https") →
      bitbucket_process body = .panicked "Could not find `https` clone in bitbucket.") := by
  refine ⟨?_, ?_, ?_⟩
  · intro h
    unfold bitbucket_process
    rw [h]
  · intro scm hscm hok harr
    rcases hok with rfl | rfl <;>
      (unfold bitbucket_process; rw [hscm, harr]; rfl)
  · intro scm clones hscm hok harr hmiss
    rcases hok with rfl | rfl <;>
      (unfold bitbucket_process
       rw [hscm, harr]
       simp only [findHttpsClone_missing clones hmiss]
       rfl)

/-- Witness for C4 (amended): concrete malformed bodies for the three
conditions. -/
theorem bitbucket_malformed_panics_witness :
    bitbucket_process (Json.obj [("links", Json.obj [])]) =
      .panicked "Could not get `scm` from bitbucket." ∧
    bitbucket_process (Json.obj [("scm", Json.str "git")]) =
      .panicked "Could not get `clone` from bitbucket." ∧
    bitbucket_process (Json.obj [("scm", Json.str "hg"),
        ("links", Json.obj [("clone", Json.arr [Json.obj [("name", Json.str "ssh")]])])]) =
      .panicked "Could not find `https` clone in bitbucket." :=
  ⟨(bitbucket_malformed_panics _).1 rfl,
    (bitbucket_malformed_panics _).2.1 "git" rfl (Or.inl rfl) rfl,
    (bitbucket_malformed_panics _).2.2 "hg" [Json.obj [("name", Json.str "ssh")]]
      rfl (Or.inr rfl) rfl
      (by
        intro c hc
        simp only [List.mem_singleton] at hc
        subst hc
        exact ⟨"ssh", rfl, by decide⟩)⟩

/-- Modelled from the `semver` crate (an external dependency): the
requirement `^1.0` keeps exactly the versions with major 1, excluding
pre-releases because the comparator carries no pre-release and a
pre-release version only matches a requirement with a comparator for
its own triple. -/
def caretOneZero (v : Version) : Bool := decide (v.major = 1) && v.pre.isEmpty

/-- The published versions of the specification's worked example,
paired with opaque payloads 1-4. -/
def c3Versions : List (Nat × Version) :=
  [(1, ⟨1, 0, 0, [], []⟩), (2, ⟨1, 0, 5, [], []⟩), (3, ⟨1, 2, 0, [], []⟩),
    (4, ⟨2, 0, 0, [['b', 'e', 't', 'a']], []⟩)]

/-- C3: version resolution keeps exactly the versions satisfying the
constraint (all of them when there is none), fails with the
no-matching-version error exactly when the kept set is empty, and
otherwise selects a kept version that dominates every kept version in
the semantic-version order; on the worked example
`{1.0.0, 1.0.5, 1.2.0, 2.0.0-beta}` with `^1.0` it selects `1.2.0`. -/
theorem resolveVersion_spec :
    (∀ (α : Type) (versions : List (α × Version)), keptVersions none versions = versions) ∧
    (∀ (α : Type) (req : Version → Bool) (versions : List (α × Version)) (x : α × Version),
      x ∈ keptVersions (some req) versions ↔ x ∈ versions ∧ req x.2 = true) ∧
    (∀ (α : Type) (matcher : Option (Version → Bool)) (versions : List (α × Version)),
      resolveVersion matcher versions = .error .noMatchingVersion ↔
        keptVersions matcher versions = []) ∧
    (∀ (α : Type) (matcher : Option (Version → Bool)) (versions : List (α × Version))
      (sel : α × Version), resolveVersion matcher versions = .ok sel →
      sel ∈ keptVersions matcher versions ∧
        ∀ x ∈ keptVersions matcher versions, versionLe x.2 sel.2 = true) ∧
    resolveVersion (some caretOneZero) c3Versions = .ok (3, ⟨1, 2, 0, [], []⟩) := by
  refine ⟨fun α versions => rfl, ?_, fun α m v => resolveVersion_error_iff m v,
    fun α m v s h => resolveVersion_ok_max m v s h, ?_⟩
  · intro α req versions x
    simp [keptVersions, List.mem_filter]
  · have hkept : keptVersions (some caretOneZero) c3Versions =
        [(1, ⟨1, 0, 0, [], []⟩), (2, ⟨1, 0, 5, [], []⟩), (3, ⟨1, 2, 0, [], []⟩)] := by decide
    have hsorted : List.Pairwise (fun x y : Nat × Version => pairLe x y = true)
        [(1, ⟨1, 0, 0, [], []⟩), (2, ⟨1, 0, 5, [], []⟩), (3, ⟨1, 2, 0, [], []⟩)] := by decide
    rw [resolveVersion_eq_form, hkept, List.mergeSort_of_sorted hsorted]
    decide

/-- Witness for C3: the maximality statement applied to the worked
example, with its hypothesis discharged by the example conjunct of the
claim theorem itself. -/
theorem resolveVersion_spec_witness :
    (3, (⟨1, 2, 0, [], []⟩ : Version)) ∈ keptVersions (some caretOneZero) c3Versions ∧
    ∀ x ∈ keptVersions (some caretOneZero) c3Versions,
      versionLe x.2 ⟨1, 2, 0, [], []⟩ = true := by
  exact resolveVersion_spec.2.2.2.1 Nat (some caretOneZero) c3Versions
    (3, ⟨1, 2, 0, [], []⟩) resolveVersion_spec.2.2.2.2

/-! ## Round trip between the version parser and printer

These lemmas show a parsed version prints back to the exact input, so
the parser is injective on its successes and the `={version}`
normalization of `check_semver_req` reproduces the input verbatim. -/

theorem isDigit_toNat {c : Char} (h : c.isDigit = true) : 48 ≤ c.toNat ∧ c.toNat ≤ 57 := by
  simp only [Char.isDigit, Bool.and_eq_true, decide_eq_true_eq] at h
  obtain ⟨h1, h2⟩ := h
  exact ⟨by exact_mod_cast h1, by exact_mod_cast h2⟩

theorem digitChar_val {c : Char} (h : c.isDigit = true) : digitChar (c.toNat - 48) = c := by
  obtain ⟨h1, _⟩ := isDigit_toNat h
  unfold digitChar
  rw [show 48 + (c.toNat - 48) = c.toNat by omega]
  exact Char.ofNat_toNat c

theorem natDigitsAux_congr : ∀ (f₁ f₂ n : Nat), n < f₁ → n < f₂ →
    natDigitsAux f₁ n = natDigitsAux f₂ n
  | 0, _, _, h, _ => absurd h (by omega)
  | _ + 1, 0, _, _, h => absurd h (by omega)
  | f₁ + 1, f₂ + 1, n, h₁, h₂ => by
    unfold natDigitsAux
    by_cases h : n < 10
    · simp [h]
    · simp only [h, if_false]
      have hd : n / 10 < n := Nat.div_lt_self (by omega) (by omega)
      rw [natDigitsAux_congr f₁ f₂ (n / 10) (by omega) (by omega)]

theorem digitsToNat_snoc (ds : List Char) (c : Char) :
    digitsToNat (ds ++ [c]) = digitsToNat ds * 10 + (c.toNat - 48) := by
  simp [digitsToNat, List.foldl_append]

theorem digitsToNat_singleton (c : Char) : digitsToNat [c] = c.toNat - 48 := by
  simp [digitsToNat]

theorem foldl_digits_pos : ∀ (rest : List Char) (acc : Nat), 1 ≤ acc →
    1 ≤ List.foldl (fun acc c => acc * 10 + (c.toNat - 48)) acc rest
  | [], _, h => h
  | c :: rest, acc, h =>
    foldl_digits_pos rest (acc * 10 + (c.toNat - 48)) (by omega)

theorem digitsToNat_pos {c : Char} (rest : List Char) (hne : c ≠ '0')
    (hd : c.isDigit = true) : 1 ≤ digitsToNat (c :: rest) := by
  have hval : 1 ≤ c.toNat - 48 := by
    obtain ⟨h1, h2⟩ := isDigit_toNat hd
    rcases Nat.lt_or_ge 48 c.toNat with h | h
    · omega
    · exfalso
      apply hne
      have : c.toNat = 48 := by omega
      calc c = Char.ofNat c.toNat := (Char.ofNat_toNat c).symm
        _ = '0' := by rw [this]
  simpa [digitsToNat] using foldl_digits_pos rest (c.toNat - 48) hval

theorem natDigits_digitsToNat (ds : List Char) : ds ≠ [] → ds.all (·.isDigit) = true →
    (ds.length = 1 ∨ ds.head? ≠ some '0') → natDigits (digitsToNat ds) = ds := by
  induction ds using List.reverseRecOn with
  | nil => intro h _ _; exact absurd rfl h
  | append_singleton init c ih =>
    intro _ hall hlead
    have hc : c.isDigit = true := by
      rw [List.all_eq_true] at hall
      exact hall c (by simp)
    have hcv : c.toNat - 48 < 10 := by
      obtain ⟨h1, h2⟩ := isDigit_toNat hc
      omega
    cases hinit : init with
    | nil =>
      rw [show ([] : List Char) ++ [c] = [c] from rfl, digitsToNat_singleton]
      unfold natDigits natDigitsAux
      rw [if_pos hcv, digitChar_val hc]
    | cons d init' =>
      rw [← hinit]
      have hd : d ≠ '0' := by
        rcases hlead with hlen | hhead
        · rw [hinit] at hlen
          simp at hlen
        · rw [hinit] at hhead
          simp at hhead
          exact hhead
      have hdd : d.isDigit = true := by
        rw [List.all_eq_true] at hall
        exact hall d (by simp [hinit])
      have hm : 1 ≤ digitsToNat init := by
        rw [hinit]
        exact digitsToNat_pos init' hd hdd
      rw [digitsToNat_snoc]
      have hdiv : (digitsToNat init * 10 + (c.toNat - 48)) / 10 = digitsToNat init := by
        rw [Nat.mul_comm, Nat.mul_add_div (by omega), Nat.div_eq_of_lt hcv]
        omega
      have hmod : (digitsToNat init * 10 + (c.toNat - 48)) % 10 = c.toNat - 48 := by
        rw [Nat.mul_comm, Nat.mul_add_mod, Nat.mod_eq_of_lt hcv]
      have hge : ¬(digitsToNat init * 10 + (c.toNat - 48)) < 10 := by omega
      unfold natDigits
      conv_lhs => rw [natDigitsAux]
      rw [if_neg hge, hdiv, hmod, digitChar_val hc]
      rw [natDigitsAux_congr (digitsToNat init * 10 + (c.toNat - 48)) (digitsToNat init + 1)
        (digitsToNat init) (by omega) (by omega)]
      have hihres : natDigits (digitsToNat init) = init := by
        apply ih
        · rw [hinit]; simp
        · rw [List.all_eq_true] at hall ⊢
          exact fun x hx => hall x (by simp [hx])
        · rw [hinit]
          right
          simpa using hd
      rw [show natDigitsAux (digitsToNat init + 1) (digitsToNat init) =
        natDigits (digitsToNat init) from rfl, hihres]

theorem takeWhile_all (p : Char → Bool) (cs : List Char) :
    (cs.takeWhile p).all p = true := by
  rw [List.all_eq_true]
  exact fun x hx => List.mem_takeWhile_imp hx

theorem parseNum_split {cs : List Char} {n : Nat} {rest : List Char}
    (h : parseNum cs = some (n, rest)) : cs = natDigits n ++ rest := by
  unfold parseNum at h
  by_cases h1 : (cs.takeWhile (·.isDigit)).isEmpty
  · rw [if_pos h1] at h; exact absurd h (by simp)
  · rw [if_neg h1] at h
    by_cases h2 : 1 < (cs.takeWhile (·.isDigit)).length ∧
        (cs.takeWhile (·.isDigit)).head? = some '0'
    · rw [if_pos h2] at h; exact absurd h (by simp)
    · rw [if_neg h2] at h
      by_cases h3 : 2 ^ 64 ≤ digitsToNat (cs.takeWhile (·.isDigit))
      · rw [if_pos h3] at h; exact absurd h (by simp)
      · rw [if_neg h3] at h
        simp only [Option.some.injEq, Prod.mk.injEq] at h
        obtain ⟨hn, hrest⟩ := h
        have hsplit : cs.takeWhile (·.isDigit) ++ cs.dropWhile (·.isDigit) = cs :=
          List.takeWhile_append_dropWhile (·.isDigit) cs
        have hne : cs.takeWhile (·.isDigit) ≠ [] := by
          intro hx; rw [hx] at h1; exact h1 rfl
        have hlen1 : (cs.takeWhile (·.isDigit)).length = 1 ∨
            (cs.takeWhile (·.isDigit)).head? ≠ some '0' := by
          rcases Nat.lt_or_ge 1 (cs.takeWhile (·.isDigit)).length with hl | hl
          · right; intro hh; exact h2 ⟨hl, hh⟩
          · left
            have : (cs.takeWhile (·.isDigit)).length ≠ 0 := by
              intro hz; exact hne (List.length_eq_zero.mp hz)
            omega
        have hround : natDigits n = cs.takeWhile (·.isDigit) := by
          rw [← hn]
          exact natDigits_digitsToNat _ hne (takeWhile_all _ cs) hlen1
        have hdrop : cs.drop (cs.takeWhile (·.isDigit)).length = cs.dropWhile (·.isDigit) := by
          have hdl := List.drop_left (cs.takeWhile (·.isDigit)) (cs.dropWhile (·.isDigit))
          rw [hsplit] at hdl
          exact hdl
        rw [hround, ← hrest, hdrop]
        exact hsplit.symm

theorem splitDots_ne_nil (cs : List Char) : splitDots cs ≠ [] := by
  cases cs with
  | nil => simp [splitDots]
  | cons c rest =>
    unfold splitDots
    by_cases h : c = '.'
    · simp [h]
    · simp only [h, if_false]
      rcases splitDots rest with _ | ⟨s, ss⟩ <;> simp

theorem joinDots_splitDots (cs : List Char) : joinDots (splitDots cs) = cs := by
  induction cs with
  | nil => rfl
  | cons c rest ih =>
    unfold splitDots
    by_cases h : c = '.'
    · subst h
      simp only [if_pos rfl]
      rcases hs : splitDots rest with _ | ⟨s, ss⟩
      · exact absurd hs (splitDots_ne_nil rest)
      · rw [hs] at ih
        show [] ++ '.' :: joinDots (s :: ss) = '.' :: rest
        rw [ih]
        rfl
    · simp only [h, if_false]
      rcases hs : splitDots rest with _ | ⟨s, ss⟩
      · exact absurd hs (splitDots_ne_nil rest)
      · rw [hs] at ih
        cases ss with
        | nil =>
          show c :: s = c :: rest
          rw [← ih]
          rfl
        | cons s' ss' =>
          show (c :: s) ++ '.' :: joinDots (s' :: ss') = c :: rest
          rw [← ih]
          rfl

theorem parseIdentList_split {allow : Bool} {cs : List Char} {segs : List (List Char)}
    (h : parseIdentList allow cs = some segs) :
    joinDots segs = cs ∧ segs ≠ [] := by
  unfold parseIdentList at h
  by_cases h1 : (splitDots cs).all (validIdent allow) = true
  · rw [if_pos h1] at h
    simp only [Option.some.injEq] at h
    subst h
    exact ⟨joinDots_splitDots cs, splitDots_ne_nil cs⟩
  · rw [if_neg h1] at h
    exact absurd h (by simp)

theorem expectChar_eq {c : Char} {l rest : List Char} (h : expectChar c l = some rest) :
    l = c :: rest := by
  cases l with
  | nil => exact absurd h (by simp [expectChar])
  | cons x l' =>
    simp only [expectChar] at h
    by_cases hx : x = c
    · rw [if_pos hx] at h
      simp only [Option.some.injEq] at h
      rw [hx, h]
    · rw [if_neg hx] at h
      exact absurd h (by simp)

/-- A successfully parsed version prints back to the exact input. -/
theorem parseVersion_display {s : String} {v : Version} (h : parseVersion s = some v) :
    s.data = displayVersionCs v := by
  unfold parseVersion at h
  simp only [bind, Option.bind_eq_some] at h
  obtain ⟨⟨maj, r1⟩, h1, h⟩ := h
  obtain ⟨r2, h2, h⟩ := h
  obtain ⟨⟨mino, r3⟩, h3, h⟩ := h
  obtain ⟨r4, h4, h⟩ := h
  obtain ⟨⟨pat, r5⟩, h5, h⟩ := h
  have hs1 : s.data = natDigits maj ++ r1 := parseNum_split h1
  have hs2 : r1 = '.' :: r2 := expectChar_eq h2
  have hs3 : r2 = natDigits mino ++ r3 := parseNum_split h3
  have hs4 : r3 = '.' :: r4 := expectChar_eq h4
  have hs5 : r4 = natDigits pat ++ r5 := parseNum_split h5
  rw [hs1, hs2, hs3, hs4, hs5]
  clear hs1 hs2 hs3 hs4 hs5 h1 h2 h3 h4 h5
  rcases r5 with _ | ⟨c, r6⟩
  · simp only [parseTail, Option.some.injEq] at h
    subst h
    simp [displayVersionCs, List.append_assoc]
  · simp only [parseTail] at h
    by_cases hc1 : c = '-'
    · subst hc1
      rw [if_pos rfl] at h
      simp only [parsePreTail, bind, Option.bind_eq_some] at h
      obtain ⟨pre, hp, h⟩ := h
      obtain ⟨hjoin, hpre_ne⟩ := parseIdentList_split hp
      have hsplit6 : r6.takeWhile (· ≠ '+') ++ r6.dropWhile (· ≠ '+') = r6 :=
        List.takeWhile_append_dropWhile (· ≠ '+') r6
      have hdrop6 : r6.drop (r6.takeWhile (· ≠ '+')).length = r6.dropWhile (· ≠ '+') := by
        have hdl := List.drop_left (r6.takeWhile (· ≠ '+')) (r6.dropWhile (· ≠ '+'))
        rw [hsplit6] at hdl
        exact hdl
      rw [hdrop6] at h
      rcases hr : r6.dropWhile (· ≠ '+') with _ | ⟨c2, r7⟩
      · rw [hr] at h
        simp only [parseAfterPre, Option.some.injEq] at h
        subst h
        rw [← hsplit6, hr]
        simp [displayVersionCs, hjoin, hpre_ne, List.append_assoc]
      · rw [hr] at h
        simp only [parseAfterPre] at h
        by_cases hc2 : c2 = '+'
        · subst hc2
          rw [if_pos rfl] at h
          simp only [parseBuildTail, bind, Option.bind_eq_some] at h
          obtain ⟨bld, hb, h⟩ := h
          obtain ⟨hjoinb, hbld_ne⟩ := parseIdentList_split hb
          simp only [Option.some.injEq] at h
          subst h
          rw [← hsplit6, hr]
          simp [displayVersionCs, hjoin, hjoinb, hpre_ne, hbld_ne, List.append_assoc]
        · rw [if_neg hc2] at h
          exact absurd h (by simp)
    · rw [if_neg hc1] at h
      by_cases hc2 : c = '+'
      · subst hc2
        rw [if_pos rfl] at h
        simp only [parseBuildTail, bind, Option.bind_eq_some] at h
        obtain ⟨bld, hb, h⟩ := h
        obtain ⟨hjoinb, hbld_ne⟩ := parseIdentList_split hb
        simp only [Option.some.injEq] at h
        subst h
        simp [displayVersionCs, hjoinb, hbld_ne, List.append_assoc]
      · rw [if_neg hc2] at h
        exact absurd h (by simp)

/-- The version parser is injective on its successes. -/
theorem parseVersion_inj {s t : String} {v : Version} (hs : parseVersion s = some v)
    (ht : parseVersion t = some v) : s = t :=
  string_ext ((parseVersion_display hs).trans (parseVersion_display ht).symm)

theorem data_eq_nil_iff {s : String} : s.data = [] ↔ s = "" := by
  constructor
  · intro h
    cases s
    exact (congrArg String.mk h).trans rfl
  · intro h; subst h; rfl

/-- C5: the raw-constraint classifier of `check_semver_req` — a first
character among `< > = ^ ~` or a `*` anywhere sends the string to the
range parser; every other non-empty string must parse as an exact
semantic version and is normalized to the `={version}` constraint
(verbatim the input, by the print/parse round trip); the empty string
always fails with the `version is empty` error. -/
theorem check_semver_req_spec :
    (∀ reqParse : String → Except String String,
      check_semver_req reqParse "" = .error .emptyVersion) ∧
    (∀ (reqParse : String → Except String String) (version : String),
      isReqSyntax version = true →
      check_semver_req reqParse version =
        match reqParse version with
        | .ok s => .ok s
        | .error e => .error (.invalidReq e)) ∧
    (∀ (reqParse : String → Except String String) (version : String),
      version ≠ "" → isReqSyntax version = false →
      check_semver_req reqParse version =
        match parseVersion version with
        | some v => .ok (String.mk ('=' :: displayVersionCs v))
        | none => .error (.notValidSemver version)) ∧
    (∀ (reqParse : String → Except String String) (version : String) (v : Version),
      parseVersion version = some v → isReqSyntax version = false →
      check_semver_req reqParse version = .ok ("=" ++ version)) ∧
    (∀ version : String, isReqSyntax version = true ↔
      ((∃ c, version.data.head? = some c ∧ c ∈ ['<', '>', '=', '^', '~']) ∨
        '*' ∈ version.data)) := by
  have hnonempty : ∀ (reqParse : String → Except String String) (version : String),
      version ≠ "" → isReqSyntax version = false →
      check_semver_req reqParse version =
        match parseVersion version with
        | some v => .ok (String.mk ('=' :: displayVersionCs v))
        | none => .error (.notValidSemver version) := by
    intro reqParse version hne hreq
    cases hd : version.data with
    | nil => exact absurd (data_eq_nil_iff.mp hd) hne
    | cons c rest =>
      unfold check_semver_req
      rw [hd]
      simp only [hreq, Bool.false_eq_true, if_false]
  refine ⟨fun _ => rfl, ?_, hnonempty, ?_, ?_⟩
  · intro reqParse version h
    cases hd : version.data with
    | nil =>
      exfalso
      unfold isReqSyntax at h
      rw [hd] at h
      exact Bool.noConfusion h
    | cons c rest =>
      unfold check_semver_req
      rw [hd]
      simp only [h, if_true]
  · intro reqParse version v hv hreq
    have hne : version ≠ "" := by
      intro he
      subst he
      exact Option.noConfusion ((rfl : parseVersion "" = none).symm.trans hv)
    rw [hnonempty reqParse version hne hreq, hv]
    refine congrArg Except.ok (string_ext ?_)
    show '=' :: displayVersionCs v = ("=" ++ version).data
    rw [String.data_append, ← parseVersion_display hv]
    rfl
  · intro version
    unfold isReqSyntax
    cases hd : version.data with
    | nil => simp
    | cons c rest =>
      rw [show "<>=^~".data = ['<', '>', '=', '^', '~'] from rfl]
      constructor
      · intro h
        rcases Bool.or_eq_true_iff.mp h with h1 | h2
        · exact Or.inl ⟨c, rfl, by simpa using h1⟩
        · right
          simpa using h2
      · intro h
        apply Bool.or_eq_true_iff.mpr
        rcases h with ⟨c', hc', hmem⟩ | hstar
        · left
          simp only [List.head?_cons, Option.some.injEq] at hc'
          subst hc'
          simpa using hmem
        · right
          simpa using hstar

/-- Witness for C5: one input per branch — empty, range syntax, exact
version (normalized verbatim), and a non-version string. -/
theorem check_semver_req_spec_witness :
    check_semver_req (fun s => .ok s) "" = .error .emptyVersion ∧
    check_semver_req (fun s => .ok s) "^1.0" = .ok "^1.0" ∧
    check_semver_req (fun s => .ok s) "1.2.3" = .ok ("=" ++ "1.2.3") ∧
    check_semver_req (fun s => .ok s) "abc" = .error (.notValidSemver "abc") := by
  refine ⟨check_semver_req_spec.1 _, ?_, ?_, ?_⟩
  · rw [check_semver_req_spec.2.1 (fun s => .ok s) "^1.0" (by decide)]
  · exact check_semver_req_spec.2.2.2.1 (fun s => .ok s) "1.2.3" ⟨1, 2, 3, [], []⟩
      (by decide) (by decide)
  · rw [check_semver_req_spec.2.2.1 (fun s => .ok s) "abc" (by decide) (by decide)]
    decide

/-- C8: version selection is deterministic in the input ordering — two
permutations of a version list whose parsed versions are pairwise
distinct resolve to the same result (payload and version), and the
version parser is injective on successes, so pairwise-distinct version
strings give pairwise-distinct parsed versions. -/
theorem resolveVersion_deterministic :
    (∀ (α : Type) (matcher : Option (Version → Bool)) (l₁ l₂ : List (α × Version)),
      List.Perm l₁ l₂ → l₁.Pairwise (fun x y => x.2 ≠ y.2) →
      resolveVersion matcher l₁ = resolveVersion matcher l₂) ∧
    (∀ (s t : String) (v : Version), parseVersion s = some v → parseVersion t = some v →
      s = t) :=
  ⟨fun _ matcher _ _ hp hd => resolveVersion_perm matcher hp hd,
    fun _ _ _ hs ht => parseVersion_inj hs ht⟩

/-- Witness for C8: a two-element list and its transposition resolve
identically. -/
theorem resolveVersion_deterministic_witness :
    resolveVersion none [((1 : Nat), (⟨1, 0, 0, [], []⟩ : Version)), (2, ⟨1, 0, 5, [], []⟩)] =
      resolveVersion none [(2, ⟨1, 0, 5, [], []⟩), (1, ⟨1, 0, 0, [], []⟩)] :=
  resolveVersion_deterministic.1 Nat none _ _ (List.Perm.swap _ _ _) (by decide)

end CargoClone
